import Mathlib

/-!
Verification of the fqbarcode tool (src/main.rs): a barcode frequency
collector followed by an edit-distance based reconciliation pass that merges
low-count barcodes into high-count "endpoint" barcodes.

The embedding models the program state as follows.

- The Rust HashMap from String to u64 (the frequency table `barcodes`) is an
  association list with unique keys; the list order stands for the map's
  iteration order. Counts are Nat (u64 overflow is immaterial here: the
  program only sums read counts).
- The read loop of main (lines 105-124) is a fold over the per-read
  extraction outcomes: each observation is either some label (the regex
  matched and the replacement template expanded to that label) or none
  (no match). The regex engine itself is the external collaborator.
- The reconciliation pass of main (lines 137-212) is embedded
  operation by operation: endpoint partition, candidate list sorted
  ascending by count, per-candidate minimum-distance merge.
- The call to the levenshtein crate is embedded as Mathlib's standard
  Levenshtein edit distance with unit costs, which is the function the
  crate documents and implements.
- The thread_rng driven random tie-break (SliceRandom::choose, line 195) is
  a parameter: a `Chooser` is any function returning an element of the given
  list (none exactly on the empty list, as `choose` does). Theorems hold for
  every chooser; `headChooser` is a concrete instance used for evaluation.
-/

namespace FqBarcode

/-- The frequency table `barcodes : HashMap<String, u64>`, as an association
list whose order stands for the map's iteration order. -/
abbrev Table := List (String × Nat)

/-- The key list of a table (the map's key set, in iteration order). -/
def keys (t : Table) : List String := t.map Prod.fst

/-- A well-formed table has pairwise distinct keys, as a HashMap does. -/
def NodupKeys (t : Table) : Prop := (keys t).Nodup

/-- Lookup of a key's count, as `HashMap::get`. -/
def lookupCount : Table → String → Option Nat
  | [], _ => none
  | (k, c) :: t, b => if k = b then some c else lookupCount t b

/-- The count a table holds for a key, zero when absent. -/
def countOf (t : Table) (b : String) : Nat := (lookupCount t b).getD 0

/-- The update `*table.entry(k).or_insert(0) += c` (lines 111-112 with c = 1,
line 199 with c = the merged count): add `c` to the entry of `k`, creating it
from 0 when absent. -/
def addToKey (k : String) (c : Nat) : Table → Table
  | [] => [(k, c)]
  | (k', c') :: t => if k' = k then (k', c' + c) :: t else (k', c') :: addToKey k c t

/-- The removal `table.remove(&k)` (line 201). -/
def removeKey (k : String) (t : Table) : Table :=
  t.filter (fun p => decide (p.1 ≠ k))

/-- The source's `count_barcodes`: the sum of all counts in the table
(lines 62-64). -/
def count_barcodes (t : Table) : Nat := (t.map Prod.snd).sum

/-- The collector's mutable state in main: the table `barcodes`, the
`no_barcode` counter and the `total_reads` counter (lines 89-91). -/
structure CollectState where
  barcodes : Table
  no_barcode : Nat
  total_reads : Nat

/-- One iteration of the read loop (lines 105-124): on a match the expanded
label's count is incremented (entry or_insert 0, then += 1), on no match
`no_barcode` is incremented; `total_reads` is incremented either way. -/
def collectStep (st : CollectState) (obs : Option String) : CollectState :=
  match obs with
  | some label =>
      { st with
        barcodes := addToKey label 1 st.barcodes
        total_reads := st.total_reads + 1 }
  | none =>
      { st with
        no_barcode := st.no_barcode + 1
        total_reads := st.total_reads + 1 }

/-- The whole read loop, starting from the empty table and zeroed counters. -/
def collect (obss : List (Option String)) : CollectState :=
  obss.foldl collectStep ⟨[], 0, 0⟩

/-- The call `levenshtein(&barcode, endpoint_barcode)` (line 173): the crate
computes the standard Levenshtein edit distance between the two strings,
embedded as Mathlib's edit distance with unit costs over the character
lists. -/
def levDist (a b : String) : Nat :=
  levenshtein Levenshtein.defaultCost a.data b.data

/-- The endpoint set (lines 137-143): the keys whose count strictly exceeds
`threshold_count`. -/
def endpointsOf (tc : Nat) (t : Table) : List String :=
  (t.filter (fun p => decide (tc < p.2))).map Prod.fst

/-- The non-endpoint (candidate) list (lines 148-157): the entries of the
table whose key is not in the endpoint set, with their counts. -/
def candidatesOf (tc : Nat) (t : Table) : Table :=
  t.filter (fun p => decide (p.1 ∉ endpointsOf tc t))

/-- Stable insertion of one element: `x` goes in front of the first `y` with
`le x y`. -/
def insertBy {α : Type} (le : α → α → Bool) (x : α) : List α → List α
  | [] => [x]
  | y :: ys => if le x y then x :: y :: ys else y :: insertBy le x ys

/-- Stable sort by the comparator `le`, modelling Rust's stable
`slice::sort_by`. -/
def sortBy {α : Type} (le : α → α → Bool) : List α → List α
  | [] => []
  | x :: xs => insertBy le x (sortBy le xs)

/-- The source's `sort_barcodes` (lines 58-60): stable sort of (label, count)
pairs in descending count order, from `sort_by(|a, b| b.1.cmp(&a.1))`. -/
def sort_barcodes (s : List (String × Nat)) : List (String × Nat) :=
  sortBy (fun a b => decide (b.2 ≤ a.2)) s

/-- The candidate ordering of line 158, `sort_by(|a, b| a.1.cmp(&b.1))`:
ascending by count, lowest first. -/
def sortCandidates (s : Table) : Table :=
  sortBy (fun a b => decide (a.2 ≤ b.2)) s

/-- The tie-break oracle standing for `min_distance_endpoint_barcodes.choose
(&mut rng)` (line 195): any rule returning a member of the given list, and
none exactly on the empty list, as SliceRandom::choose behaves. -/
structure Chooser where
  pick : List String → Option String
  pick_mem : ∀ l x, pick l = some x → x ∈ l
  pick_some : ∀ l, l ≠ [] → (pick l).isSome = true

/-- A concrete chooser taking the first option, used to evaluate runs. -/
def headChooser : Chooser where
  pick := List.head?
  pick_mem := by
    intro l x h
    cases l with
    | nil => simp [List.head?] at h
    | cons a t => simp [List.head?] at h; simp [h]
  pick_some := by
    intro l h
    cases l with
    | nil => simp at h
    | cons a t => simp [List.head?]

/-- The per-candidate distance map (lines 168-175): the edit distance from
the candidate to every endpoint. -/
def endPointDistances (b : String) (eps : List String) : List (String × Nat) :=
  eps.map (fun e => (e, levDist b e))

/-- The minimum endpoint distance (lines 177-181), with the `unwrap_or(0)`
default for an empty distance map. -/
def minEndpointDistance (b : String) (eps : List String) : Nat :=
  (((endPointDistances b eps).map Prod.snd).min?).getD 0

/-- One iteration of the merge loop (lines 161-206) on candidate `cand`:
compute the distances to all endpoints; if the minimum is within
`threshold_distance`, pick one endpoint among those at the minimum, add the
candidate's count to it and remove the candidate; otherwise leave the table
unchanged. -/
def mergeOne (ch : Chooser) (td : Nat) (eps : List String) (t : Table)
    (cand : String × Nat) : Table :=
  let dists := endPointDistances cand.1 eps
  let m := ((dists.map Prod.snd).min?).getD 0
  if m ≤ td then
    let minEps := (dists.filter (fun p => decide (p.2 = m))).map Prod.fst
    match ch.pick minEps with
    | some sel => removeKey cand.1 (addToKey sel cand.2 t)
    | none => t
  else t

/-- The whole reconciliation pass (lines 137-212): partition into endpoints
and candidates, and when the endpoint set is non-empty fold the merge step
over the candidates in ascending count order; when it is empty the table is
returned unmodified. -/
def reconcile (ch : Chooser) (tc td : Nat) (t : Table) : Table :=
  let eps := endpointsOf tc t
  if eps.isEmpty then t
  else (sortCandidates (candidatesOf tc t)).foldl (mergeOne ch td eps) t

/-- The report step (lines 217-222): the table's pairs are collected in
iteration order and then `sort_barcodes` is applied unconditionally; the
parsed `args.sort_barcodes` flag (line 22) is never consulted anywhere in
main, so it is an ignored argument here. -/
def reportPairs (_sortFlag : Bool) (t : Table) : List (String × Nat) :=
  sort_barcodes t

/-- The spec's worked scenario table. -/
def scenarioTable : Table := [("AAA", 10), ("AAT", 1), ("GGG", 8)]

/-! Basic lemmas about the association-list table operations. -/

theorem lookupCount_cons (k' : String) (c' : Nat) (t : Table) (b : String) :
    lookupCount ((k', c') :: t) b = if k' = b then some c' else lookupCount t b := rfl

theorem addToKey_cons (k k' : String) (c c' : Nat) (t : Table) :
    addToKey k c ((k', c') :: t) =
      if k' = k then (k', c' + c) :: t else (k', c') :: addToKey k c t := rfl

theorem removeKey_cons (k k' : String) (c' : Nat) (t : Table) :
    removeKey k ((k', c') :: t) =
      if k' = k then removeKey k t else (k', c') :: removeKey k t := by
  by_cases hk : k' = k <;> simp [removeKey, List.filter_cons, hk]

theorem keys_cons (k' : String) (c' : Nat) (t : Table) :
    keys ((k', c') :: t) = k' :: keys t := rfl

theorem count_barcodes_cons (k' : String) (c' : Nat) (t : Table) :
    count_barcodes ((k', c') :: t) = c' + count_barcodes t := by
  simp [count_barcodes]

theorem nodupKeys_cons {k : String} {c : Nat} {t : Table}
    (h : NodupKeys ((k, c) :: t)) : ¬ k ∈ keys t ∧ NodupKeys t := by
  simp only [NodupKeys, keys, List.map_cons, List.nodup_cons] at h
  exact h

theorem mem_keys_of_mem {t : Table} {p : String × Nat} (h : p ∈ t) :
    p.1 ∈ keys t :=
  List.mem_map_of_mem Prod.fst h

theorem mem_of_lookup {t : Table} {k : String} {c : Nat}
    (h : lookupCount t k = some c) : (k, c) ∈ t := by
  induction t with
  | nil => simp [lookupCount] at h
  | cons p t ih =>
    obtain ⟨k', c'⟩ := p
    rw [lookupCount_cons] at h
    by_cases hk : k' = k
    · subst hk
      rw [if_pos rfl] at h
      injection h with h
      subst h
      exact List.mem_cons_self _ _
    · rw [if_neg hk] at h
      exact List.mem_cons_of_mem _ (ih h)

theorem mem_keys_of_lookup {t : Table} {k : String} {c : Nat}
    (h : lookupCount t k = some c) : k ∈ keys t :=
  mem_keys_of_mem (mem_of_lookup h)

theorem lookup_isSome_of_mem_keys {t : Table} {k : String}
    (h : k ∈ keys t) : ∃ c, lookupCount t k = some c := by
  induction t with
  | nil => simp [keys] at h
  | cons p t ih =>
    obtain ⟨k', c'⟩ := p
    by_cases hk : k' = k
    · exact ⟨c', by rw [lookupCount_cons, if_pos hk]⟩
    · have hm : k ∈ keys t := by
        rw [keys_cons] at h
        rcases List.mem_cons.mp h with h1 | h1
        · exact absurd h1.symm hk
        · exact h1
      obtain ⟨c, hc⟩ := ih hm
      exact ⟨c, by rw [lookupCount_cons, if_neg hk]; exact hc⟩

theorem lookup_of_mem {t : Table} {k : String} {c : Nat}
    (hnd : NodupKeys t) (h : (k, c) ∈ t) : lookupCount t k = some c := by
  induction t with
  | nil => simp at h
  | cons p t ih =>
    obtain ⟨k', c'⟩ := p
    obtain ⟨hnk, hnd'⟩ := nodupKeys_cons hnd
    rw [lookupCount_cons]
    rcases List.mem_cons.mp h with h1 | h1
    · rw [Prod.mk.injEq] at h1
      obtain ⟨rfl, rfl⟩ := h1
      rw [if_pos rfl]
    · have hk : k' ≠ k := by
        intro he
        exact hnk (by rw [he]; exact mem_keys_of_mem h1)
      rw [if_neg hk]
      exact ih hnd' h1

theorem lookupCount_addToKey_self (k : String) (c : Nat) (t : Table) :
    lookupCount (addToKey k c t) k = some ((lookupCount t k).getD 0 + c) := by
  induction t with
  | nil => simp [addToKey, lookupCount]
  | cons p t ih =>
    obtain ⟨k', c'⟩ := p
    rw [addToKey_cons]
    by_cases hk : k' = k
    · rw [if_pos hk, lookupCount_cons, if_pos hk, lookupCount_cons, if_pos hk]
      simp
    · rw [if_neg hk, lookupCount_cons, if_neg hk, lookupCount_cons, if_neg hk]
      exact ih

theorem lookupCount_addToKey_other {k b : String} (hne : k ≠ b) (c : Nat) (t : Table) :
    lookupCount (addToKey k c t) b = lookupCount t b := by
  induction t with
  | nil => simp [addToKey, lookupCount, hne]
  | cons p t ih =>
    obtain ⟨k', c'⟩ := p
    rw [addToKey_cons]
    by_cases hk : k' = k
    · have hb : k' ≠ b := by rw [hk]; exact hne
      rw [if_pos hk, lookupCount_cons, if_neg hb, lookupCount_cons, if_neg hb]
    · rw [if_neg hk, lookupCount_cons, lookupCount_cons]
      by_cases hb : k' = b
      · rw [if_pos hb, if_pos hb]
      · rw [if_neg hb, if_neg hb]
        exact ih

theorem keys_addToKey_mem {k : String} (c : Nat) {t : Table} (h : k ∈ keys t) :
    keys (addToKey k c t) = keys t := by
  induction t with
  | nil => simp [keys] at h
  | cons p t ih =>
    obtain ⟨k', c'⟩ := p
    rw [addToKey_cons]
    by_cases hk : k' = k
    · rw [if_pos hk, keys_cons, keys_cons]
    · have hm : k ∈ keys t := by
        rw [keys_cons] at h
        rcases List.mem_cons.mp h with h1 | h1
        · exact absurd h1.symm hk
        · exact h1
      rw [if_neg hk, keys_cons, keys_cons, ih hm]

theorem keys_addToKey_notMem {k : String} (c : Nat) {t : Table} (h : ¬ k ∈ keys t) :
    keys (addToKey k c t) = keys t ++ [k] := by
  induction t with
  | nil => simp [addToKey, keys]
  | cons p t ih =>
    obtain ⟨k', c'⟩ := p
    rw [keys_cons] at h
    have hk : k' ≠ k := by
      intro he
      exact h (by rw [he]; exact List.mem_cons_self _ _)
    have hm : ¬ k ∈ keys t := fun hm => h (List.mem_cons_of_mem _ hm)
    rw [addToKey_cons, if_neg hk, keys_cons, keys_cons, ih hm]
    rfl

theorem count_barcodes_addToKey (k : String) (c : Nat) (t : Table) :
    count_barcodes (addToKey k c t) = count_barcodes t + c := by
  induction t with
  | nil => simp [addToKey, count_barcodes]
  | cons p t ih =>
    obtain ⟨k', c'⟩ := p
    rw [addToKey_cons]
    by_cases hk : k' = k
    · rw [if_pos hk, count_barcodes_cons, count_barcodes_cons]
      omega
    · rw [if_neg hk, count_barcodes_cons, count_barcodes_cons, ih]
      omega

theorem nodupKeys_addToKey (k : String) (c : Nat) {t : Table} (h : NodupKeys t) :
    NodupKeys (addToKey k c t) := by
  by_cases hm : k ∈ keys t
  · unfold NodupKeys
    rw [keys_addToKey_mem c hm]
    exact h
  · unfold NodupKeys
    rw [keys_addToKey_notMem c hm]
    simpa [List.nodup_append] using ⟨h, hm⟩

theorem lookupCount_removeKey_self (k : String) (t : Table) :
    lookupCount (removeKey k t) k = none := by
  induction t with
  | nil => rfl
  | cons p t ih =>
    obtain ⟨k', c'⟩ := p
    rw [removeKey_cons]
    by_cases hk : k' = k
    · rw [if_pos hk]
      exact ih
    · rw [if_neg hk, lookupCount_cons, if_neg hk]
      exact ih

theorem lookupCount_removeKey_other {k b : String} (hne : b ≠ k) (t : Table) :
    lookupCount (removeKey k t) b = lookupCount t b := by
  induction t with
  | nil => rfl
  | cons p t ih =>
    obtain ⟨k', c'⟩ := p
    rw [removeKey_cons]
    by_cases hk : k' = k
    · have hb : k' ≠ b := by
        intro he
        exact hne (by rw [← he, hk])
      rw [if_pos hk, lookupCount_cons, if_neg hb]
      exact ih
    · rw [if_neg hk, lookupCount_cons, lookupCount_cons]
      by_cases hb : k' = b
      · rw [if_pos hb, if_pos hb]
      · rw [if_neg hb, if_neg hb]
        exact ih

theorem keys_removeKey_subset (k : String) (t : Table) :
    keys (removeKey k t) ⊆ keys t :=
  ((List.filter_sublist t).map Prod.fst).subset

theorem nodupKeys_removeKey (k : String) {t : Table} (h : NodupKeys t) :
    NodupKeys (removeKey k t) :=
  ((List.filter_sublist t).map Prod.fst).nodup h

theorem removeKey_eq_of_notMem {k : String} {t : Table} (h : ¬ k ∈ keys t) :
    removeKey k t = t := by
  induction t with
  | nil => rfl
  | cons p t ih =>
    obtain ⟨k', c'⟩ := p
    rw [keys_cons] at h
    have hk : k' ≠ k := by
      intro he
      exact h (by rw [he]; exact List.mem_cons_self _ _)
    have hm : ¬ k ∈ keys t := fun hm => h (List.mem_cons_of_mem _ hm)
    rw [removeKey_cons, if_neg hk, ih hm]

theorem count_barcodes_removeKey {k : String} {c : Nat} {t : Table}
    (hnd : NodupKeys t) (h : lookupCount t k = some c) :
    count_barcodes (removeKey k t) + c = count_barcodes t := by
  induction t with
  | nil => simp [lookupCount] at h
  | cons p t ih =>
    obtain ⟨k', c'⟩ := p
    obtain ⟨hnk, hnd'⟩ := nodupKeys_cons hnd
    rw [lookupCount_cons] at h
    rw [removeKey_cons]
    by_cases hk : k' = k
    · rw [if_pos hk] at h
      injection h with h
      subst h
      rw [if_pos hk, removeKey_eq_of_notMem (hk ▸ hnk), count_barcodes_cons]
      omega
    · rw [if_neg hk] at h
      rw [if_neg hk, count_barcodes_cons, count_barcodes_cons]
      have := ih hnd' h
      omega

/-! Lemmas about the stable sort, the endpoint partition and the minimum
endpoint distance. -/

theorem insertBy_perm {α : Type} (le : α → α → Bool) (x : α) (l : List α) :
    (insertBy le x l).Perm (x :: l) := by
  induction l with
  | nil => exact List.Perm.refl _
  | cons y ys ih =>
    rw [insertBy]
    by_cases h : le x y
    · rw [if_pos h]
    · rw [if_neg h]
      exact (List.Perm.cons y ih).trans (List.Perm.swap x y ys)

theorem sortBy_perm {α : Type} (le : α → α → Bool) (l : List α) :
    (sortBy le l).Perm l := by
  induction l with
  | nil => exact List.Perm.refl _
  | cons x xs ih =>
    rw [sortBy]
    exact (insertBy_perm le x (sortBy le xs)).trans (List.Perm.cons x ih)

theorem sortCandidates_perm (s : Table) : (sortCandidates s).Perm s :=
  sortBy_perm _ s

theorem endpointsOf_spec {tc : Nat} {t : Table} {e : String}
    (h : e ∈ endpointsOf tc t) : ∃ c, (e, c) ∈ t ∧ tc < c := by
  obtain ⟨p, hp, rfl⟩ := List.mem_map.mp h
  obtain ⟨hpt, hlt⟩ := List.mem_filter.mp hp
  exact ⟨p.2, by simpa using hpt, by simpa using hlt⟩

theorem endpointsOf_mem_keys {tc : Nat} {t : Table} {e : String}
    (h : e ∈ endpointsOf tc t) : e ∈ keys t := by
  obtain ⟨c, hc, -⟩ := endpointsOf_spec h
  exact mem_keys_of_mem hc

theorem mem_endpointsOf {tc : Nat} {t : Table} {p : String × Nat}
    (hp : p ∈ t) (hlt : tc < p.2) : p.1 ∈ endpointsOf tc t :=
  List.mem_map_of_mem Prod.fst (List.mem_filter.mpr ⟨hp, by simpa using hlt⟩)

theorem candidatesOf_not_endpoint {tc : Nat} {t : Table} {p : String × Nat}
    (h : p ∈ candidatesOf tc t) : ¬ p.1 ∈ endpointsOf tc t := by
  have := (List.mem_filter.mp h).2
  simpa using this

theorem candidatesOf_mem {tc : Nat} {t : Table} {p : String × Nat}
    (h : p ∈ candidatesOf tc t) : p ∈ t :=
  (List.filter_sublist t).subset h

theorem mem_candidatesOf {tc : Nat} {t : Table} {p : String × Nat}
    (hp : p ∈ t) (hne : ¬ p.1 ∈ endpointsOf tc t) : p ∈ candidatesOf tc t :=
  List.mem_filter.mpr ⟨hp, by simpa using hne⟩

theorem nodupKeys_candidatesOf (tc : Nat) {t : Table} (h : NodupKeys t) :
    NodupKeys (candidatesOf tc t) :=
  ((List.filter_sublist t).map Prod.fst).nodup h

theorem endPointDistances_snd (b : String) (eps : List String) :
    (endPointDistances b eps).map Prod.snd = eps.map (levDist b) := by
  simp [endPointDistances, List.map_map]

theorem min?_isSome_of_ne_nil {l : List Nat} (h : l ≠ []) :
    l.min?.isSome = true := by
  cases l with
  | nil => exact absurd rfl h
  | cons a t => simp [List.min?]

theorem minEndpointDistance_eq_some {b : String} {eps : List String}
    (h : eps ≠ []) :
    (eps.map (levDist b)).min? = some (minEndpointDistance b eps) := by
  have hs := min?_isSome_of_ne_nil (l := eps.map (levDist b)) (by simpa using h)
  obtain ⟨m, hm⟩ := Option.isSome_iff_exists.mp hs
  rw [minEndpointDistance, endPointDistances_snd, hm]
  rfl

theorem minEndpointDistance_mem_le {b : String} {eps : List String}
    (h : eps ≠ []) :
    (∃ e ∈ eps, levDist b e = minEndpointDistance b eps) ∧
      ∀ e ∈ eps, minEndpointDistance b eps ≤ levDist b e := by
  have hmin := minEndpointDistance_eq_some (b := b) h
  rw [List.min?_eq_some_iff'] at hmin
  obtain ⟨hmem, hle⟩ := hmin
  constructor
  · obtain ⟨e, he, heq⟩ := List.mem_map.mp hmem
    exact ⟨e, he, heq⟩
  · intro e he
    exact hle _ (List.mem_map_of_mem _ he)

theorem pick_mem_minEps {ch : Chooser} {b : String} {eps : List String}
    {m : Nat} {sel : String}
    (h : ch.pick (((endPointDistances b eps).filter
      (fun p => decide (p.2 = m))).map Prod.fst) = some sel) :
    sel ∈ eps ∧ levDist b sel = m := by
  have hmem := ch.pick_mem _ _ h
  obtain ⟨p, hp, hfst⟩ := List.mem_map.mp hmem
  obtain ⟨hpd, hpm⟩ := List.mem_filter.mp hp
  obtain ⟨e, he, rfl⟩ := List.mem_map.mp hpd
  simp only at hfst
  subst hfst
  refine ⟨he, ?_⟩
  simpa using hpm

theorem minEps_ne_nil {b : String} {eps : List String} (h : eps ≠ []) :
    ((endPointDistances b eps).filter
      (fun p => decide (p.2 = minEndpointDistance b eps))).map Prod.fst ≠ [] := by
  obtain ⟨⟨e, he, heq⟩, -⟩ := minEndpointDistance_mem_le (b := b) h
  intro hnil
  have hmem : (e, levDist b e) ∈ (endPointDistances b eps).filter
      (fun p => decide (p.2 = minEndpointDistance b eps)) := by
    refine List.mem_filter.mpr ⟨?_, by simpa using heq⟩
    exact List.mem_map_of_mem _ he
  rw [List.map_eq_nil_iff] at hnil
  rw [hnil] at hmem
  simp at hmem

/-! The per-candidate merge step: case analysis and consequences. -/

theorem mergeOne_eq (ch : Chooser) (td : Nat) (eps : List String) (t : Table)
    (cand : String × Nat) :
    mergeOne ch td eps t cand =
      if minEndpointDistance cand.1 eps ≤ td then
        match ch.pick (((endPointDistances cand.1 eps).filter
            (fun p => decide (p.2 = minEndpointDistance cand.1 eps))).map Prod.fst) with
        | some sel => removeKey cand.1 (addToKey sel cand.2 t)
        | none => t
      else t := rfl

theorem mergeOne_cases (ch : Chooser) (td : Nat) (eps : List String) (t : Table)
    (cand : String × Nat) :
    mergeOne ch td eps t cand = t ∨
      ∃ sel, sel ∈ eps ∧ levDist cand.1 sel = minEndpointDistance cand.1 eps ∧
        minEndpointDistance cand.1 eps ≤ td ∧
        mergeOne ch td eps t cand = removeKey cand.1 (addToKey sel cand.2 t) := by
  rw [mergeOne_eq]
  by_cases hm : minEndpointDistance cand.1 eps ≤ td
  · rw [if_pos hm]
    cases hp : ch.pick (((endPointDistances cand.1 eps).filter
        (fun p => decide (p.2 = minEndpointDistance cand.1 eps))).map Prod.fst) with
    | none => exact Or.inl rfl
    | some sel =>
      obtain ⟨hs1, hs2⟩ := pick_mem_minEps hp
      exact Or.inr ⟨sel, hs1, hs2, hm, rfl⟩
  · rw [if_neg hm]
    exact Or.inl rfl

theorem mergeOne_sum {ch : Chooser} {td : Nat} {eps : List String} {t : Table}
    {cand : String × Nat} (hnd : NodupKeys t) (hcn : ¬ cand.1 ∈ eps)
    (hlk : lookupCount t cand.1 = some cand.2) :
    count_barcodes (mergeOne ch td eps t cand) = count_barcodes t := by
  rcases mergeOne_cases ch td eps t cand with heq | ⟨sel, hsel, -, -, heq⟩
  · rw [heq]
  · rw [heq]
    have hne : sel ≠ cand.1 := fun he => hcn (he ▸ hsel)
    have h1 : lookupCount (addToKey sel cand.2 t) cand.1 = some cand.2 := by
      rw [lookupCount_addToKey_other hne]
      exact hlk
    have h2 := count_barcodes_removeKey (nodupKeys_addToKey sel cand.2 hnd) h1
    rw [count_barcodes_addToKey] at h2
    omega

theorem mergeOne_lookup_other {ch : Chooser} {td : Nat} {eps : List String}
    {t : Table} {cand : String × Nat} {b : String} (hb1 : b ≠ cand.1)
    (hb2 : ¬ b ∈ eps) :
    lookupCount (mergeOne ch td eps t cand) b = lookupCount t b := by
  rcases mergeOne_cases ch td eps t cand with heq | ⟨sel, hsel, -, -, heq⟩
  · rw [heq]
  · rw [heq]
    have hbs : sel ≠ b := fun he => hb2 (he ▸ hsel)
    rw [lookupCount_removeKey_other hb1, lookupCount_addToKey_other hbs]

theorem mergeOne_endpoint {ch : Chooser} {td : Nat} {eps : List String}
    {t : Table} {cand : String × Nat} {e : String} {c : Nat}
    (he : e ∈ eps) (hcn : ¬ cand.1 ∈ eps) (hlk : lookupCount t e = some c) :
    ∃ c', lookupCount (mergeOne ch td eps t cand) e = some c' ∧ c ≤ c' := by
  rcases mergeOne_cases ch td eps t cand with heq | ⟨sel, hsel, -, -, heq⟩
  · exact ⟨c, by rw [heq]; exact hlk, Nat.le_refl c⟩
  · have hec : e ≠ cand.1 := fun h2 => hcn (h2 ▸ he)
    rw [heq]
    rw [lookupCount_removeKey_other hec] at *
    by_cases hse : sel = e
    · subst hse
      refine ⟨c + cand.2, ?_, Nat.le_add_right c cand.2⟩
      rw [lookupCount_addToKey_self, hlk]
      rfl
    · exact ⟨c, by rw [lookupCount_addToKey_other hse]; exact hlk, Nat.le_refl c⟩

theorem mergeOne_keys_subset {ch : Chooser} {td : Nat} {eps : List String}
    {t : Table} {cand : String × Nat} (heps : ∀ x ∈ eps, x ∈ keys t) :
    keys (mergeOne ch td eps t cand) ⊆ keys t := by
  rcases mergeOne_cases ch td eps t cand with heq | ⟨sel, hsel, -, -, heq⟩
  · rw [heq]
    exact List.Subset.refl _
  · rw [heq]
    intro x hx
    have h1 := keys_removeKey_subset cand.1 (addToKey sel cand.2 t) hx
    rw [keys_addToKey_mem cand.2 (heps sel hsel)] at h1
    exact h1

theorem mergeOne_nodup {ch : Chooser} {td : Nat} {eps : List String}
    {t : Table} {cand : String × Nat} (hnd : NodupKeys t) :
    NodupKeys (mergeOne ch td eps t cand) := by
  rcases mergeOne_cases ch td eps t cand with heq | ⟨sel, -, -, -, heq⟩
  · rw [heq]; exact hnd
  · rw [heq]
    exact nodupKeys_removeKey _ (nodupKeys_addToKey _ _ hnd)

/-! The reconciliation fold and the top-level passes. -/

theorem mergeFold_inv (ch : Chooser) (td : Nat) (eps : List String)
    (cands : List (String × Nat)) :
    ∀ t : Table, NodupKeys t → (∀ e ∈ eps, e ∈ keys t) →
      (∀ p ∈ cands, ¬ p.1 ∈ eps) → (cands.map Prod.fst).Nodup →
      (∀ p ∈ cands, lookupCount t p.1 = some p.2) →
      NodupKeys (cands.foldl (mergeOne ch td eps) t) ∧
      count_barcodes (cands.foldl (mergeOne ch td eps) t) = count_barcodes t ∧
      keys (cands.foldl (mergeOne ch td eps) t) ⊆ keys t ∧
      (∀ e ∈ eps, ∀ c, lookupCount t e = some c →
        ∃ c', lookupCount (cands.foldl (mergeOne ch td eps) t) e = some c' ∧
          c ≤ c') := by
  induction cands with
  | nil =>
    intro t hnd heps hne hnc hlk
    exact ⟨hnd, rfl, List.Subset.refl _, fun e he c hc => ⟨c, hc, Nat.le_refl c⟩⟩
  | cons cand rest ih =>
    intro t hnd heps hne hnc hlk
    rw [List.foldl_cons]
    have hcn : ¬ cand.1 ∈ eps := hne cand (List.mem_cons_self _ _)
    have hclk : lookupCount t cand.1 = some cand.2 :=
      hlk cand (List.mem_cons_self _ _)
    have hnd' : NodupKeys (mergeOne ch td eps t cand) := mergeOne_nodup hnd
    have heps' : ∀ e ∈ eps, e ∈ keys (mergeOne ch td eps t cand) := by
      intro e he
      obtain ⟨c, hc⟩ := lookup_isSome_of_mem_keys (heps e he)
      obtain ⟨c', hc', -⟩ :=
        @mergeOne_endpoint ch td eps t cand e c he hcn hc
      exact mem_keys_of_lookup hc'
    have hnc2 := hnc
    rw [List.map_cons, List.nodup_cons] at hnc2
    obtain ⟨hfst, hnrest⟩ := hnc2
    have hne' : ∀ p ∈ rest, ¬ p.1 ∈ eps :=
      fun p hp => hne p (List.mem_cons_of_mem _ hp)
    have hlk' : ∀ p ∈ rest,
        lookupCount (mergeOne ch td eps t cand) p.1 = some p.2 := by
      intro p hp
      have hbne : p.1 ≠ cand.1 := by
        intro he
        exact hfst (he ▸ List.mem_map_of_mem Prod.fst hp)
      rw [mergeOne_lookup_other hbne (hne' p hp)]
      exact hlk p (List.mem_cons_of_mem _ hp)
    obtain ⟨ihnd, ihsum, ihkeys, iheps⟩ :=
      ih (mergeOne ch td eps t cand) hnd' heps' hne' hnrest hlk'
    refine ⟨ihnd, ?_, ?_, ?_⟩
    · rw [ihsum, mergeOne_sum hnd hcn hclk]
    · exact ihkeys.trans (mergeOne_keys_subset heps)
    · intro e he c hc
      obtain ⟨c1, hc1, hle1⟩ :=
        @mergeOne_endpoint ch td eps t cand e c he hcn hc
      obtain ⟨c2, hc2, hle2⟩ := iheps e he c1 hc1
      exact ⟨c2, hc2, Nat.le_trans hle1 hle2⟩

theorem reconcile_eq (ch : Chooser) (tc td : Nat) (t : Table) :
    reconcile ch tc td t =
      if (endpointsOf tc t).isEmpty then t
      else (sortCandidates (candidatesOf tc t)).foldl
        (mergeOne ch td (endpointsOf tc t)) t := rfl

theorem reconcile_inv (ch : Chooser) (tc td : Nat) {t : Table}
    (hnd : NodupKeys t) :
    NodupKeys (reconcile ch tc td t) ∧
    count_barcodes (reconcile ch tc td t) = count_barcodes t ∧
    keys (reconcile ch tc td t) ⊆ keys t ∧
    (∀ e ∈ endpointsOf tc t, ∀ c, lookupCount t e = some c →
      ∃ c', lookupCount (reconcile ch tc td t) e = some c' ∧ c ≤ c') := by
  rw [reconcile_eq]
  by_cases hemp : (endpointsOf tc t).isEmpty
  · rw [if_pos hemp]
    exact ⟨hnd, rfl, List.Subset.refl _, fun e he c hc => ⟨c, hc, Nat.le_refl c⟩⟩
  · rw [if_neg hemp]
    have hperm := sortCandidates_perm (candidatesOf tc t)
    have hmem : ∀ p ∈ sortCandidates (candidatesOf tc t), p ∈ candidatesOf tc t :=
      fun p hp => hperm.mem_iff.mp hp
    refine mergeFold_inv ch td (endpointsOf tc t)
      (sortCandidates (candidatesOf tc t)) t hnd ?_ ?_ ?_ ?_
    · intro e he
      exact endpointsOf_mem_keys he
    · intro p hp
      exact candidatesOf_not_endpoint (hmem p hp)
    · exact ((hperm.map Prod.fst).symm).nodup (nodupKeys_candidatesOf tc hnd)
    · intro p hp
      exact lookup_of_mem hnd (candidatesOf_mem (hmem p hp))

theorem collect_invariant (obss : List (Option String)) :
    ∀ st : CollectState, NodupKeys st.barcodes →
      count_barcodes st.barcodes + st.no_barcode = st.total_reads →
      NodupKeys (obss.foldl collectStep st).barcodes ∧
      count_barcodes (obss.foldl collectStep st).barcodes +
        (obss.foldl collectStep st).no_barcode =
        (obss.foldl collectStep st).total_reads := by
  induction obss with
  | nil =>
    intro st h1 h2
    exact ⟨h1, h2⟩
  | cons obs rest ih =>
    intro st h1 h2
    rw [List.foldl_cons]
    apply ih
    · cases obs with
      | some l => exact nodupKeys_addToKey l 1 h1
      | none => exact h1
    · cases obs with
      | some l =>
        show count_barcodes (addToKey l 1 st.barcodes) + st.no_barcode =
          st.total_reads + 1
        rw [count_barcodes_addToKey]
        omega
      | none =>
        show count_barcodes st.barcodes + (st.no_barcode + 1) =
          st.total_reads + 1
        omega

theorem collect_nodup (obss : List (Option String)) :
    NodupKeys (collect obss).barcodes :=
  (collect_invariant obss ⟨[], 0, 0⟩ List.nodup_nil rfl).1

theorem collect_conservation (obss : List (Option String)) :
    count_barcodes (collect obss).barcodes + (collect obss).no_barcode =
      (collect obss).total_reads :=
  (collect_invariant obss ⟨[], 0, 0⟩ List.nodup_nil rfl).2

theorem mergeOne_skip_eq {ch : Chooser} {td : Nat} {eps : List String}
    {t : Table} {cand : String × Nat}
    (hgt : ¬ minEndpointDistance cand.1 eps ≤ td) :
    mergeOne ch td eps t cand = t := by
  rw [mergeOne_eq, if_neg hgt]

theorem mergeOne_merge_eq {ch : Chooser} {td : Nat} {eps : List String}
    {t : Table} {cand : String × Nat} {sel : String}
    (hle : minEndpointDistance cand.1 eps ≤ td)
    (hp : ch.pick (((endPointDistances cand.1 eps).filter
      (fun p => decide (p.2 = minEndpointDistance cand.1 eps))).map Prod.fst) =
      some sel) :
    mergeOne ch td eps t cand = removeKey cand.1 (addToKey sel cand.2 t) := by
  rw [mergeOne_eq, if_pos hle, hp]

/-! The claims. -/

/-- Claim C1 (code bug): the spec says the report order is table iteration
order when the sort flag is off and descending-count order only when it is
on. The code parses the flag (line 22) but never reads it: `sort_barcodes`
is applied unconditionally at line 219. On the table iterating as
[("A", 1), ("B", 2)] with the flag off, the code emits the sorted
[("B", 2), ("A", 1)] instead of the iteration order, and the flag's value
makes no difference. -/
theorem C1_report_ignores_flag :
    reportPairs false [("A", 1), ("B", 2)] = [("B", 2), ("A", 1)] ∧
      reportPairs false [("A", 1), ("B", 2)] ≠ [("A", 1), ("B", 2)] ∧
      reportPairs true [("A", 1), ("B", 2)] =
        reportPairs false [("A", 1), ("B", 2)] :=
  ⟨by decide, by decide, rfl⟩

/-- Claim C2: conservation. For every input observation sequence, the sum of
the table counts plus the unmatched count equals the total read count, both
after collection and after reconciliation with any thresholds and any
tie-break rule. -/
theorem C2_conservation (obss : List (Option String)) (ch : Chooser)
    (tc td : Nat) :
    count_barcodes (collect obss).barcodes + (collect obss).no_barcode =
      (collect obss).total_reads ∧
    count_barcodes (reconcile ch tc td (collect obss).barcodes) +
      (collect obss).no_barcode = (collect obss).total_reads := by
  refine ⟨collect_conservation obss, ?_⟩
  rw [(reconcile_inv ch tc td (collect_nodup obss)).2.1]
  exact collect_conservation obss

/-- Claim C3: endpoint immutability. Every key of the endpoint set computed
at partition time is still in the table after reconciliation, with a final
count at least its count at partition time. -/
theorem C3_endpoint_immutability (ch : Chooser) (tc td : Nat) (t : Table)
    (hnd : NodupKeys t) :
    ∀ e ∈ endpointsOf tc t,
      ∃ c', lookupCount (reconcile ch tc td t) e = some c' ∧
        countOf t e ≤ c' := by
  intro e he
  obtain ⟨c, hc⟩ := lookup_isSome_of_mem_keys (endpointsOf_mem_keys he)
  obtain ⟨c', hc', hle⟩ := (reconcile_inv ch tc td hnd).2.2.2 e he c hc
  refine ⟨c', hc', ?_⟩
  rw [countOf, hc]
  exact hle

/-- Witness for C3 on the spec's scenario table: the endpoint "AAA" survives
reconciliation with a count at least its partition-time count. -/
theorem C3_endpoint_immutability_witness :
    ∃ c', lookupCount (reconcile headChooser 2 1 scenarioTable) "AAA" =
      some c' ∧ countOf scenarioTable "AAA" ≤ c' :=
  C3_endpoint_immutability headChooser 2 1 scenarioTable
    (by show (keys scenarioTable).Nodup; decide) "AAA" (by decide)

/-- Claim C4: per-candidate merge postcondition. When the endpoint set is
non-empty, a processed candidate whose minimum endpoint distance exceeds
threshold_distance leaves the table unchanged (keeping its original count),
and one within the threshold has its count added to an endpoint at exactly
the minimum distance while its own entry is removed. -/
theorem C4_candidate_merge (ch : Chooser) (td : Nat) (eps : List String)
    (t : Table) (cand : String × Nat) (hb : ¬ cand.1 ∈ eps)
    (hlk : lookupCount t cand.1 = some cand.2) (hne : eps ≠ []) :
    (∀ e ∈ eps, minEndpointDistance cand.1 eps ≤ levDist cand.1 e) ∧
    (td < minEndpointDistance cand.1 eps →
      mergeOne ch td eps t cand = t ∧
      lookupCount (mergeOne ch td eps t cand) cand.1 = some cand.2) ∧
    (minEndpointDistance cand.1 eps ≤ td →
      ∃ e, e ∈ eps ∧ levDist cand.1 e = minEndpointDistance cand.1 eps ∧
        lookupCount (mergeOne ch td eps t cand) e =
          some (countOf t e + cand.2) ∧
        lookupCount (mergeOne ch td eps t cand) cand.1 = none) := by
  refine ⟨(minEndpointDistance_mem_le hne).2, ?_, ?_⟩
  · intro hgt
    have heq := @mergeOne_skip_eq ch td eps t cand (Nat.not_le.mpr hgt)
    rw [heq]
    exact ⟨rfl, hlk⟩
  · intro hle
    have hnil := minEps_ne_nil (b := cand.1) hne
    have hsome := ch.pick_some _ hnil
    cases hp : ch.pick (((endPointDistances cand.1 eps).filter
        (fun p => decide (p.2 = minEndpointDistance cand.1 eps))).map Prod.fst)
      with
    | none =>
      rw [hp] at hsome
      simp at hsome
    | some sel =>
      obtain ⟨hs1, hs2⟩ := pick_mem_minEps hp
      have hsb : sel ≠ cand.1 := fun he => hb (he ▸ hs1)
      have heq := mergeOne_merge_eq (t := t) hle hp
      refine ⟨sel, hs1, hs2, ?_, ?_⟩
      · rw [heq, lookupCount_removeKey_other hsb, lookupCount_addToKey_self]
        rfl
      · rw [heq, lookupCount_removeKey_self]

/-- Witness for C4 on the spec's scenario: the candidate ("AAT", 1) against
endpoints ["AAA", "GGG"] with threshold distance 1. -/
theorem C4_candidate_merge_witness :
    (∀ e ∈ ["AAA", "GGG"],
      minEndpointDistance "AAT" ["AAA", "GGG"] ≤ levDist "AAT" e) ∧
    (1 < minEndpointDistance "AAT" ["AAA", "GGG"] →
      mergeOne headChooser 1 ["AAA", "GGG"] scenarioTable ("AAT", 1) =
        scenarioTable ∧
      lookupCount (mergeOne headChooser 1 ["AAA", "GGG"] scenarioTable
        ("AAT", 1)) "AAT" = some 1) ∧
    (minEndpointDistance "AAT" ["AAA", "GGG"] ≤ 1 →
      ∃ e, e ∈ ["AAA", "GGG"] ∧
        levDist "AAT" e = minEndpointDistance "AAT" ["AAA", "GGG"] ∧
        lookupCount (mergeOne headChooser 1 ["AAA", "GGG"] scenarioTable
          ("AAT", 1)) e = some (countOf scenarioTable e + 1) ∧
        lookupCount (mergeOne headChooser 1 ["AAA", "GGG"] scenarioTable
          ("AAT", 1)) "AAT" = none) :=
  C4_candidate_merge headChooser 1 ["AAA", "GGG"] scenarioTable ("AAT", 1)
    (by decide) (by decide) (by decide)

/-- Claim C5: threshold boundary semantics. A barcode whose count equals
threshold_count exactly is a candidate, not an endpoint (the endpoint test
is strict), and a candidate whose minimum endpoint distance equals
threshold_distance exactly is merged, that is, removed from the table (the
distance test is inclusive). -/
theorem C5_threshold_boundaries :
    (∀ (tc : Nat) (t : Table) (b : String), NodupKeys t →
      lookupCount t b = some tc →
      ¬ b ∈ endpointsOf tc t ∧ (b, tc) ∈ candidatesOf tc t) ∧
    (∀ (ch : Chooser) (td : Nat) (eps : List String) (t : Table)
      (cand : String × Nat), ¬ cand.1 ∈ eps → eps ≠ [] →
      minEndpointDistance cand.1 eps = td →
      lookupCount (mergeOne ch td eps t cand) cand.1 = none) := by
  constructor
  · intro tc t b hnd hlk
    have hne : ¬ b ∈ endpointsOf tc t := by
      intro hmem
      obtain ⟨c, hc, hlt⟩ := endpointsOf_spec hmem
      rw [lookup_of_mem hnd hc] at hlk
      injection hlk with hlk
      omega
    exact ⟨hne, mem_candidatesOf (mem_of_lookup hlk) hne⟩
  · intro ch td eps t cand hb hne hmin
    have hle : minEndpointDistance cand.1 eps ≤ td := Nat.le_of_eq hmin
    have hnil := minEps_ne_nil (b := cand.1) hne
    have hsome := ch.pick_some _ hnil
    cases hp : ch.pick (((endPointDistances cand.1 eps).filter
        (fun p => decide (p.2 = minEndpointDistance cand.1 eps))).map Prod.fst)
      with
    | none =>
      rw [hp] at hsome
      simp at hsome
    | some sel =>
      rw [mergeOne_merge_eq (t := t) hle hp, lookupCount_removeKey_self]

/-- Claim C6: no-endpoints passthrough. When no count strictly exceeds
threshold_count the endpoint set is empty and reconciliation returns the
table unchanged. -/
theorem C6_no_endpoints_passthrough (ch : Chooser) (tc td : Nat) (t : Table)
    (h : ∀ p ∈ t, p.2 ≤ tc) :
    endpointsOf tc t = [] ∧ reconcile ch tc td t = t := by
  have hemp : endpointsOf tc t = [] := by
    rw [endpointsOf, List.map_eq_nil_iff, List.filter_eq_nil_iff]
    intro p hp
    simpa using Nat.not_lt.mpr (h p hp)
  refine ⟨hemp, ?_⟩
  rw [reconcile_eq, hemp]
  rfl

/-- Witness for C6: all counts equal to the threshold, so nothing strictly
exceeds it. -/
theorem C6_no_endpoints_passthrough_witness :
    endpointsOf 1 [("AAA", 1), ("AAB", 1), ("AAC", 1)] = [] ∧
      reconcile headChooser 1 1 [("AAA", 1), ("AAB", 1), ("AAC", 1)] =
        [("AAA", 1), ("AAB", 1), ("AAC", 1)] :=
  C6_no_endpoints_passthrough headChooser 1 1
    [("AAA", 1), ("AAB", 1), ("AAC", 1)] (by decide)

/-- Claim C7: the worked scenario. On the table
[("AAA", 10), ("AAT", 1), ("GGG", 8)] with threshold_count 2 and
threshold_distance 1, the endpoints are AAA and GGG, the candidate AAT is at
distance 1 from AAA and 3 from GGG, and for every tie-break rule the result
is exactly [("AAA", 11), ("GGG", 8)]. -/
theorem C7_scenario (ch : Chooser) :
    endpointsOf 2 scenarioTable = ["AAA", "GGG"] ∧
    levDist "AAT" "AAA" = 1 ∧ levDist "AAT" "GGG" = 3 ∧
    reconcile ch 2 1 scenarioTable = [("AAA", 11), ("GGG", 8)] := by
  refine ⟨by decide, by decide, by decide, ?_⟩
  have hs : ch.pick ["AAA"] = some "AAA" := by
    have h1 := ch.pick_some ["AAA"] (by simp)
    cases hp : ch.pick ["AAA"] with
    | none =>
      rw [hp] at h1
      simp at h1
    | some x =>
      have hx := ch.pick_mem _ _ hp
      simp at hx
      subst hx
      rfl
  have hred : reconcile ch 2 1 scenarioTable =
      (match ch.pick ["AAA"] with
       | some sel => removeKey "AAT" (addToKey sel 1 scenarioTable)
       | none => scenarioTable) := rfl
  rw [hred, hs]
  decide

/-- Claim C8: collector contract. A matched observation increments exactly
its label's table count and the total, an unmatched observation increments
exactly the unmatched count and the total. -/
theorem C8_collector_contract (st : CollectState) (l b : String)
    (hb : b ≠ l) :
    countOf (collectStep st (some l)).barcodes l =
      countOf st.barcodes l + 1 ∧
    countOf (collectStep st (some l)).barcodes b = countOf st.barcodes b ∧
    (collectStep st (some l)).no_barcode = st.no_barcode ∧
    (collectStep st (some l)).total_reads = st.total_reads + 1 ∧
    (collectStep st none).barcodes = st.barcodes ∧
    (collectStep st none).no_barcode = st.no_barcode + 1 ∧
    (collectStep st none).total_reads = st.total_reads + 1 := by
  refine ⟨?_, ?_, rfl, rfl, rfl, rfl, rfl⟩
  · show countOf (addToKey l 1 st.barcodes) l = countOf st.barcodes l + 1
    rw [countOf, countOf, lookupCount_addToKey_self]
    rfl
  · show countOf (addToKey l 1 st.barcodes) b = countOf st.barcodes b
    rw [countOf, countOf, lookupCount_addToKey_other (Ne.symm hb)]

/-- Witness for C8 at the empty starting state with labels "A" and "B". -/
theorem C8_collector_contract_witness :
    countOf (collectStep ⟨[], 0, 0⟩ (some "A")).barcodes "A" =
      countOf (⟨[], 0, 0⟩ : CollectState).barcodes "A" + 1 ∧
    countOf (collectStep ⟨[], 0, 0⟩ (some "A")).barcodes "B" =
      countOf (⟨[], 0, 0⟩ : CollectState).barcodes "B" ∧
    (collectStep ⟨[], 0, 0⟩ (some "A")).no_barcode =
      (⟨[], 0, 0⟩ : CollectState).no_barcode ∧
    (collectStep ⟨[], 0, 0⟩ (some "A")).total_reads =
      (⟨[], 0, 0⟩ : CollectState).total_reads + 1 ∧
    (collectStep ⟨[], 0, 0⟩ none).barcodes =
      (⟨[], 0, 0⟩ : CollectState).barcodes ∧
    (collectStep ⟨[], 0, 0⟩ none).no_barcode =
      (⟨[], 0, 0⟩ : CollectState).no_barcode + 1 ∧
    (collectStep ⟨[], 0, 0⟩ none).total_reads =
      (⟨[], 0, 0⟩ : CollectState).total_reads + 1 :=
  C8_collector_contract ⟨[], 0, 0⟩ "A" "B" (by decide)

/-- Claim C9 (implicit): no new keys. Reconciliation only removes keys or
increments existing counts: the final key set is a subset of the initial
one, and every endpoint key is still present, so the entry-or-insert on the
selected endpoint never creates a fresh entry. -/
theorem C9_no_new_keys (ch : Chooser) (tc td : Nat) (t : Table)
    (hnd : NodupKeys t) :
    keys (reconcile ch tc td t) ⊆ keys t ∧
      ∀ e ∈ endpointsOf tc t, e ∈ keys (reconcile ch tc td t) := by
  obtain ⟨-, -, hkeys, heps⟩ := reconcile_inv ch tc td hnd
  refine ⟨hkeys, ?_⟩
  intro e he
  obtain ⟨c, hc⟩ := lookup_isSome_of_mem_keys (endpointsOf_mem_keys he)
  obtain ⟨c', hc', -⟩ := heps e he c hc
  exact mem_keys_of_lookup hc'

/-- Witness for C9 on the spec's scenario table. -/
theorem C9_no_new_keys_witness :
    keys (reconcile headChooser 2 1 scenarioTable) ⊆ keys scenarioTable ∧
      ∀ e ∈ endpointsOf 2 scenarioTable,
        e ∈ keys (reconcile headChooser 2 1 scenarioTable) :=
  C9_no_new_keys headChooser 2 1 scenarioTable
    (by show (keys scenarioTable).Nodup; decide)

/-- Claim C10 (implicit): the unwrap_or(0) fallback on the minimum of the
endpoint distance map is never consulted. The merge loop runs only when the
endpoint set is non-empty (otherwise reconcile returns the table as is), and
for a non-empty endpoint set the distance map of every candidate is
non-empty, so its minimum exists and equals the value the code uses. -/
theorem C10_min_fallback_unused (ch : Chooser) (tc td : Nat) (t : Table)
    (b : String) :
    (endpointsOf tc t = [] → reconcile ch tc td t = t) ∧
    (endpointsOf tc t ≠ [] →
      (((endPointDistances b (endpointsOf tc t)).map Prod.snd).min?).isSome =
        true ∧
      ((endPointDistances b (endpointsOf tc t)).map Prod.snd).min? =
        some (minEndpointDistance b (endpointsOf tc t))) := by
  constructor
  · intro h
    rw [reconcile_eq, h]
    rfl
  · intro h
    have h1 := endPointDistances_snd b (endpointsOf tc t)
    constructor
    · rw [h1]
      exact min?_isSome_of_ne_nil (by simpa using h)
    · rw [h1]
      rw [minEndpointDistance_eq_some h]

end FqBarcode
